import Mathlib

set_option maxHeartbeats 1000000

/-!
Shallow embedding of the analytical core of the gem5 LoopPoint example
scripts: the address-range extraction/merge algorithm of
`example/extract_addr_range_from_mmap.py` and the basic-block-vector
pipeline of `example/k_means_clustering.py`.

Strings from the Python source are modelled as `List Char`; Python dicts
(whose keys are unique and iterate in insertion order) are modelled as
association lists with `Nodup` keys; Python integers are `Nat`; the float
arithmetic of the BBV normalization is modelled over `ℚ`; operations that
can raise a Python exception (`KeyError`, `ZeroDivisionError`, `ValueError`)
return `Option`, with `none` marking the raised exception.
-/

/-! ## Hexadecimal rendering and parsing

`int(s, 16)` on a string of hex digits, and the f-string format `{n:016x}`
(lowercase hex, zero-padded to a minimum width of 16 — Python never
truncates, so values of 2^64 and above render with more than 16 digits).
-/

/-- Value of a single hexadecimal digit character, as used by `int(s, 16)`. -/
def hexDigitVal (c : Char) : Nat :=
  if '0' ≤ c ∧ c ≤ '9' then c.toNat - '0'.toNat
  else if 'a' ≤ c ∧ c ≤ 'f' then c.toNat - 'a'.toNat + 10
  else if 'A' ≤ c ∧ c ≤ 'F' then c.toNat - 'A'.toNat + 10
  else 0

/-- Python `int(s, 16)` on a string consisting of hex digits. -/
def hexToNat (s : List Char) : Nat := s.foldl (fun a c => 16 * a + hexDigitVal c) 0

/-- Lowercase hex digit character, as produced by Python's `x` format code. -/
def hexDigitChar (n : Nat) : Char :=
  if n < 10 then Char.ofNat ('0'.toNat + n) else Char.ofNat ('a'.toNat + (n - 10))

/-- Fuel-driven digit extraction (least-significant digit first, accumulated
onto `acc`); `fuel = n + 1` always suffices since `n / 16 < n` for `n ≥ 16`. -/
def natToHexCore : Nat → Nat → List Char → List Char
  | 0, _, acc => acc
  | fuel+1, n, acc =>
    if n < 16 then hexDigitChar n :: acc
    else natToHexCore fuel (n / 16) (hexDigitChar (n % 16) :: acc)

/-- The lowercase hexadecimal digit string of `n` (no padding), i.e. `{n:x}`. -/
def natToHex (n : Nat) : List Char := natToHexCore (n + 1) n []

/-- Python `f"{n:016x}"`: lowercase hex, left-padded with zeros to a minimum
width of 16 characters (wider values are emitted in full, not truncated). -/
def toHex16 (n : Nat) : List Char :=
  List.replicate (16 - (natToHex n).length) '0' ++ natToHex n

/-! ## Interval merging (lines 50–61 of `extract_addr_range_from_mmap.py`)

The Python loop keeps the current run as the last element of `merged_list`
and extends it in place; `mergeLoop p ps` is that loop with `p` the running
interval and `ps` the still-unprocessed (sorted) intervals.
-/

/-- The body of the Python merge loop: extend the running interval `p` with
the next interval `q` when `q.start ≤ p.end` (touching counts), otherwise
emit `p` and restart the run at `q`. -/
def mergeLoop : (Nat × Nat) → List (Nat × Nat) → List (Nat × Nat)
  | p, [] => [p]
  | p, q :: rest =>
    if q.1 ≤ p.2 then mergeLoop (p.1, max p.2 q.2) rest
    else p :: mergeLoop q rest

/-- Merge a list of intervals that is already sorted by start. -/
def mergeSorted : List (Nat × Nat) → List (Nat × Nat)
  | [] => []
  | p :: ps => mergeLoop p ps

/-- Python's `regions.sort(key=lambda x: x[0])`: stable sort by start. -/
def sortByStart (l : List (Nat × Nat)) : List (Nat × Nat) :=
  List.insertionSort (fun p q => p.1 ≤ q.1) l

/-- The merge step of `parse_and_merge_maps` applied to one path's region
list: sort by start, then fold the merge loop. -/
def mergeRegions (l : List (Nat × Nat)) : List (Nat × Nat) :=
  mergeSorted (sortByStart l)

/-- Membership of an address in the union of a list of half-open
`[start, end)` intervals. -/
def inIntervals (l : List (Nat × Nat)) (a : Nat) : Prop :=
  ∃ p ∈ l, p.1 ≤ a ∧ a < p.2

theorem inIntervals_nil (a : Nat) : ¬ inIntervals [] a := by
  simp [inIntervals]

theorem inIntervals_cons (x : Nat × Nat) (l : List (Nat × Nat)) (a : Nat) :
    inIntervals (x :: l) a ↔ (x.1 ≤ a ∧ a < x.2) ∨ inIntervals l a := by
  simp [inIntervals, or_and_right, exists_or]

theorem mergeLoop_start_le (ps : List (Nat × Nat)) :
    ∀ p : Nat × Nat, (p :: ps).Pairwise (fun a b => a.1 ≤ b.1) →
      ∀ r ∈ mergeLoop p ps, p.1 ≤ r.1 := by
  induction ps with
  | nil =>
    intro p _ r hr
    simp [mergeLoop] at hr
    simp [hr]
  | cons q rest ih =>
    intro p hp r hr
    rw [List.pairwise_cons] at hp
    obtain ⟨hple, hqrest⟩ := hp
    by_cases hcase : q.1 ≤ p.2
    · simp only [mergeLoop, if_pos hcase] at hr
      have hpair : ((p.1, max p.2 q.2) :: rest).Pairwise (fun a b => a.1 ≤ b.1) := by
        rw [List.pairwise_cons]
        refine ⟨fun x hx => ?_, (List.pairwise_cons.mp hqrest).2⟩
        exact hple x (List.mem_cons_of_mem q hx)
      exact ih (p.1, max p.2 q.2) hpair r hr
    · simp only [mergeLoop, if_neg hcase] at hr
      rcases List.mem_cons.mp hr with h | h
      · simp [h]
      · have := ih q hqrest r h
        exact le_trans (hple q (List.mem_cons_self q rest)) this

theorem mergeLoop_pairwise (ps : List (Nat × Nat)) :
    ∀ p : Nat × Nat, (p :: ps).Pairwise (fun a b => a.1 ≤ b.1) →
      (mergeLoop p ps).Pairwise (fun a b => a.2 < b.1) := by
  induction ps with
  | nil =>
    intro p _
    simp [mergeLoop]
  | cons q rest ih =>
    intro p hp
    rw [List.pairwise_cons] at hp
    obtain ⟨hple, hqrest⟩ := hp
    by_cases hcase : q.1 ≤ p.2
    · simp only [mergeLoop, if_pos hcase]
      have hpair : ((p.1, max p.2 q.2) :: rest).Pairwise (fun a b => a.1 ≤ b.1) := by
        rw [List.pairwise_cons]
        refine ⟨fun x hx => ?_, (List.pairwise_cons.mp hqrest).2⟩
        exact hple x (List.mem_cons_of_mem q hx)
      exact ih (p.1, max p.2 q.2) hpair
    · simp only [mergeLoop, if_neg hcase]
      rw [List.pairwise_cons]
      constructor
      · intro r hr
        have hq1 : p.2 < q.1 := Nat.lt_of_not_le hcase
        exact lt_of_lt_of_le hq1 (mergeLoop_start_le rest q hqrest r hr)
      · exact ih q hqrest

theorem mergeLoop_ends (ps : List (Nat × Nat)) :
    ∀ p : Nat × Nat, (p :: ps).Pairwise (fun a b => a.1 ≤ b.1) →
      (∀ x ∈ p :: ps, x.1 < x.2) →
      ∀ r ∈ mergeLoop p ps, r.1 < r.2 := by
  induction ps with
  | nil =>
    intro p _ hends r hr
    simp [mergeLoop] at hr
    subst hr
    exact hends r (List.mem_cons_self r [])
  | cons q rest ih =>
    intro p hp hends r hr
    rw [List.pairwise_cons] at hp
    obtain ⟨hple, hqrest⟩ := hp
    by_cases hcase : q.1 ≤ p.2
    · simp only [mergeLoop, if_pos hcase] at hr
      have hpair : ((p.1, max p.2 q.2) :: rest).Pairwise (fun a b => a.1 ≤ b.1) := by
        rw [List.pairwise_cons]
        refine ⟨fun x hx => ?_, (List.pairwise_cons.mp hqrest).2⟩
        exact hple x (List.mem_cons_of_mem q hx)
      refine ih (p.1, max p.2 q.2) hpair ?_ r hr
      intro x hx
      rcases List.mem_cons.mp hx with h | h
      · subst h
        have hp2 : p.1 < p.2 := hends p (List.mem_cons_self _ _)
        exact lt_of_lt_of_le hp2 (le_max_left _ _)
      · exact hends x (List.mem_cons_of_mem p (List.mem_cons_of_mem q h))
    · simp only [mergeLoop, if_neg hcase] at hr
      rcases List.mem_cons.mp hr with h | h
      · subst h
        exact hends r (List.mem_cons_self _ _)
      · refine ih q hqrest ?_ r h
        intro x hx
        exact hends x (List.mem_cons_of_mem p hx)

theorem mergeLoop_union (ps : List (Nat × Nat)) :
    ∀ p : Nat × Nat, (p :: ps).Pairwise (fun a b => a.1 ≤ b.1) →
      ∀ a : Nat, inIntervals (mergeLoop p ps) a ↔ (p.1 ≤ a ∧ a < p.2) ∨ inIntervals ps a := by
  induction ps with
  | nil =>
    intro p _ a
    simp [mergeLoop, inIntervals_cons, inIntervals]
  | cons q rest ih =>
    intro p hp a
    rw [List.pairwise_cons] at hp
    obtain ⟨hple, hqrest⟩ := hp
    have hpq : p.1 ≤ q.1 := hple q (List.mem_cons_self q rest)
    by_cases hcase : q.1 ≤ p.2
    · simp only [mergeLoop, if_pos hcase]
      have hpair : ((p.1, max p.2 q.2) :: rest).Pairwise (fun a b => a.1 ≤ b.1) := by
        rw [List.pairwise_cons]
        refine ⟨fun x hx => ?_, (List.pairwise_cons.mp hqrest).2⟩
        exact hple x (List.mem_cons_of_mem q hx)
      rw [ih (p.1, max p.2 q.2) hpair a, inIntervals_cons]
      constructor
      · rintro (⟨h1, h2⟩ | h)
        · simp only at h1 h2
          rcases Nat.lt_or_ge a p.2 with hlt | hge
          · exact Or.inl ⟨h1, hlt⟩
          · have : q.1 ≤ a := le_trans hcase hge
            have : a < q.2 := by omega
            exact Or.inr (Or.inl ⟨by omega, this⟩)
        · exact Or.inr (Or.inr h)
      · rintro (⟨h1, h2⟩ | ⟨h1, h2⟩ | h)
        · exact Or.inl ⟨h1, by simp; omega⟩
        · exact Or.inl ⟨by omega, by simp; omega⟩
        · exact Or.inr h
    · simp only [mergeLoop, if_neg hcase]
      rw [inIntervals_cons, ih q hqrest a, inIntervals_cons]

theorem mergeLoop_id (ps : List (Nat × Nat)) :
    ∀ p : Nat × Nat, (p :: ps).Pairwise (fun a b => a.2 < b.1) →
      mergeLoop p ps = p :: ps := by
  induction ps with
  | nil =>
    intro p _
    simp [mergeLoop]
  | cons q rest ih =>
    intro p hp
    rw [List.pairwise_cons] at hp
    obtain ⟨hplt, hqrest⟩ := hp
    have hq1 : p.2 < q.1 := hplt q (List.mem_cons_self q rest)
    simp only [mergeLoop, if_neg (Nat.not_le.mpr hq1)]
    rw [ih q hqrest]

theorem pairwise_imp_mem {α : Type} {R S : α → α → Prop} :
    ∀ {l : List α}, (∀ a b, a ∈ l → b ∈ l → R a b → S a b) → l.Pairwise R → l.Pairwise S := by
  intro l
  induction l with
  | nil => intro _ _; exact List.Pairwise.nil
  | cons x xs ih =>
    intro h hp
    rw [List.pairwise_cons] at hp ⊢
    refine ⟨fun b hb => h x b (List.mem_cons_self _ _) (List.mem_cons_of_mem _ hb) (hp.1 b hb), ?_⟩
    exact ih (fun a b ha hb => h a b (List.mem_cons_of_mem _ ha) (List.mem_cons_of_mem _ hb)) hp.2

theorem sortByStart_pairwise (l : List (Nat × Nat)) :
    (sortByStart l).Pairwise (fun a b : Nat × Nat => a.1 ≤ b.1) := by
  haveI : IsTotal (Nat × Nat) (fun a b : Nat × Nat => a.1 ≤ b.1) :=
    ⟨fun a b => Nat.le_total a.1 b.1⟩
  haveI : IsTrans (Nat × Nat) (fun a b : Nat × Nat => a.1 ≤ b.1) :=
    ⟨fun _ _ _ h h2 => le_trans h h2⟩
  exact List.sorted_insertionSort _ l

theorem sortByStart_perm (l : List (Nat × Nat)) : List.Perm (sortByStart l) l :=
  List.perm_insertionSort _ l

theorem mergeRegions_pairwise (l : List (Nat × Nat)) :
    (mergeRegions l).Pairwise (fun a b : Nat × Nat => a.2 < b.1) := by
  have hs := sortByStart_pairwise l
  rw [mergeRegions]
  cases h : sortByStart l with
  | nil => simp [mergeSorted]
  | cons p ps =>
    rw [h] at hs
    exact mergeLoop_pairwise ps p hs

theorem mergeRegions_ends (l : List (Nat × Nat)) (h : ∀ p ∈ l, p.1 < p.2) :
    ∀ r ∈ mergeRegions l, r.1 < r.2 := by
  have hs := sortByStart_pairwise l
  have hends : ∀ p ∈ sortByStart l, p.1 < p.2 := fun p hp =>
    h p ((sortByStart_perm l).mem_iff.mp hp)
  rw [mergeRegions]
  cases hc : sortByStart l with
  | nil => simp [mergeSorted]
  | cons p ps =>
    rw [hc] at hs hends
    exact mergeLoop_ends ps p hs hends

theorem mergeRegions_union (l : List (Nat × Nat)) (a : Nat) :
    inIntervals (mergeRegions l) a ↔ inIntervals l a := by
  have hs := sortByStart_pairwise l
  have hperm : ∀ b : Nat, inIntervals (sortByStart l) b ↔ inIntervals l b := by
    intro b
    unfold inIntervals
    constructor
    · rintro ⟨p, hp, h⟩
      exact ⟨p, (sortByStart_perm l).mem_iff.mp hp, h⟩
    · rintro ⟨p, hp, h⟩
      exact ⟨p, (sortByStart_perm l).mem_iff.mpr hp, h⟩
  rw [mergeRegions]
  cases hc : sortByStart l with
  | nil =>
    rw [hc] at hperm
    simp [mergeSorted, ← hperm a]
  | cons p ps =>
    rw [hc] at hs hperm
    have := mergeLoop_union ps p hs a
    rw [← hperm a, inIntervals_cons]
    exact this

/-- Claim C1. For any input list of `(start, end)` interval pairs with
`start < end`, the merge step of `parse_and_merge_maps` (sort by start, then
fold the extend-or-emit loop) returns a list that is sorted by start with
each interval's start strictly greater than the previous interval's end
(no overlap, no touching), whose intervals all satisfy `start < end`, and
whose union of half-open address ranges equals the union of the input; in
particular two intervals that merely touch (`m` ends the first and starts
the second) are merged into one. -/
theorem C1_merge_sorted_disjoint_union_preserving (l : List (Nat × Nat))
    (h : ∀ p ∈ l, p.1 < p.2) :
    (mergeRegions l).Pairwise (fun a b : Nat × Nat => a.1 < b.1 ∧ a.2 < b.1) ∧
    (∀ r ∈ mergeRegions l, r.1 < r.2) ∧
    (∀ a : Nat, inIntervals (mergeRegions l) a ↔ inIntervals l a) ∧
    (∀ s m e : Nat, s < m → m < e → mergeRegions [(s, m), (m, e)] = [(s, e)]) := by
  refine ⟨?_, mergeRegions_ends l h, fun a => mergeRegions_union l a, ?_⟩
  · have hpw := mergeRegions_pairwise l
    have hends := mergeRegions_ends l h
    refine pairwise_imp_mem (fun a b ha _hb hr => ⟨?_, hr⟩) hpw
    exact lt_trans (hends a ha) hr
  · intro s m e hsm hme
    have hsorted : sortByStart [(s, m), (m, e)] = [(s, m), (m, e)] := by
      apply List.Sorted.insertionSort_eq
      exact List.pairwise_cons.mpr ⟨by simp; omega, by simp⟩
    rw [mergeRegions, hsorted]
    show mergeLoop (s, m) [(m, e)] = [(s, e)]
    rw [mergeLoop, if_pos (by simp)]
    show mergeLoop (s, max m e) [] = [(s, e)]
    rw [mergeLoop]
    simp [Nat.max_eq_right (le_of_lt hme)]

/-- Witness for C1: the merge step applied to the touching pair
`[5,10) , [10,15)` produces the single interval `[5,15)`. -/
theorem C1_witness : mergeRegions [(5, 10), (10, 15)] = [(5, 15)] :=
  (C1_merge_sorted_disjoint_union_preserving [] (by simp)).2.2.2 5 10 15
    (by decide) (by decide)

/-- Claim C8. Interval merging is idempotent: a list that already satisfies
the merged-output invariant (sorted, each start strictly above the previous
end, every interval nonempty) is returned unchanged by the merge step. -/
theorem C8_merge_idempotent (l : List (Nat × Nat))
    (hpw : l.Pairwise (fun a b : Nat × Nat => a.2 < b.1))
    (hends : ∀ p ∈ l, p.1 < p.2) :
    mergeRegions l = l := by
  have hle : l.Pairwise (fun a b : Nat × Nat => a.1 ≤ b.1) := by
    refine pairwise_imp_mem (fun a b ha _hb hr => ?_) hpw
    exact le_of_lt (lt_trans (hends a ha) hr)
  have hsorted : sortByStart l = l := List.Sorted.insertionSort_eq hle
  rw [mergeRegions, hsorted]
  cases l with
  | nil => rfl
  | cons p ps =>
    show mergeLoop p ps = p :: ps
    exact mergeLoop_id ps p hpw

/-- Witness for C8: merging the already-merged list `[(1,2), (4,6)]` returns
it unchanged. -/
theorem C8_witness : mergeRegions [(1, 2), (4, 6)] = [(1, 2), (4, 6)] :=
  C8_merge_idempotent [(1, 2), (4, 6)] (by simp) (by simp)

/-! ## Properties of the hex rendering -/

theorem natToHexCore_acc (fuel : Nat) :
    ∀ (n : Nat) (acc : List Char),
      natToHexCore fuel n acc = natToHexCore fuel n [] ++ acc := by
  induction fuel with
  | zero => intro n acc; simp [natToHexCore]
  | succ fuel ih =>
    intro n acc
    by_cases h : n < 16
    · simp [natToHexCore, if_pos h]
    · simp only [natToHexCore, if_neg h]
      rw [ih (n / 16) (hexDigitChar (n % 16) :: acc), ih (n / 16) [hexDigitChar (n % 16)]]
      simp

theorem natToHexCore_fuel (fuel : Nat) :
    ∀ (fuel2 n : Nat), n < fuel → n < fuel2 →
      natToHexCore fuel n [] = natToHexCore fuel2 n [] := by
  induction fuel with
  | zero => intro fuel2 n h _; omega
  | succ fuel ih =>
    intro fuel2 n h h2
    cases fuel2 with
    | zero => omega
    | succ fuel2 =>
      by_cases hn : n < 16
      · simp [natToHexCore, if_pos hn]
      · simp only [natToHexCore, if_neg hn]
        rw [natToHexCore_acc fuel, natToHexCore_acc fuel2]
        have hdiv : n / 16 < n := Nat.div_lt_self (by omega) (by omega)
        rw [ih fuel2 (n / 16) (by omega) (by omega)]

theorem natToHex_small (n : Nat) (h : n < 16) : natToHex n = [hexDigitChar n] := by
  simp [natToHex, natToHexCore, if_pos h]

theorem natToHex_recur (n : Nat) (h : 16 ≤ n) :
    natToHex n = natToHex (n / 16) ++ [hexDigitChar (n % 16)] := by
  have hdiv : n / 16 < n := Nat.div_lt_self (by omega) (by omega)
  rw [natToHex, natToHex]
  show natToHexCore (n + 1) n [] = _
  rw [show natToHexCore (n + 1) n [] =
      natToHexCore n (n / 16) [hexDigitChar (n % 16)] by
    simp [natToHexCore, if_neg (Nat.not_lt.mpr h)]]
  rw [natToHexCore_acc n]
  rw [natToHexCore_fuel n (n / 16 + 1) (n / 16) (by omega) (by omega)]

theorem hexVal_hexChar (n : Nat) (h : n < 16) : hexDigitVal (hexDigitChar n) = n := by
  interval_cases n <;> decide

theorem hexChar_range (n : Nat) (h : n < 16) :
    ('0' ≤ hexDigitChar n ∧ hexDigitChar n ≤ '9') ∨
    ('a' ≤ hexDigitChar n ∧ hexDigitChar n ≤ 'f') := by
  interval_cases n <;> decide

theorem hexToNat_snoc (xs : List Char) (c : Char) :
    hexToNat (xs ++ [c]) = 16 * hexToNat xs + hexDigitVal c := by
  simp [hexToNat, List.foldl_append]

theorem hexToNat_natToHex (n : Nat) : hexToNat (natToHex n) = n := by
  induction n using Nat.strong_induction_on with
  | _ n ih =>
    by_cases h : n < 16
    · rw [natToHex_small n h]
      show 16 * 0 + hexDigitVal (hexDigitChar n) = n
      rw [hexVal_hexChar n h]
      omega
    · have hdiv : n / 16 < n := Nat.div_lt_self (by omega) (by omega)
      rw [natToHex_recur n (by omega), hexToNat_snoc, ih (n / 16) hdiv,
        hexVal_hexChar (n % 16) (Nat.mod_lt n (by omega))]
      omega

theorem hexToNat_replicate_zero (k : Nat) (xs : List Char) :
    hexToNat (List.replicate k '0' ++ xs) = hexToNat xs := by
  have hz : ∀ j : Nat, List.foldl (fun a c => 16 * a + hexDigitVal c) 0
      (List.replicate j '0') = 0 := by
    intro j
    induction j with
    | zero => rfl
    | succ j ihj => simpa [List.replicate_succ, hexToNat] using ihj
  simp [hexToNat, List.foldl_append, hz k]

theorem natToHex_length_pos (n : Nat) : 1 ≤ (natToHex n).length := by
  by_cases h : n < 16
  · rw [natToHex_small n h]; simp
  · rw [natToHex_recur n (by omega)]; simp

theorem natToHex_length_le (n : Nat) :
    ∀ k : Nat, 1 ≤ k → n < 16 ^ k → (natToHex n).length ≤ k := by
  induction n using Nat.strong_induction_on with
  | _ n ih =>
    intro k hk hlt
    by_cases h : n < 16
    · rw [natToHex_small n h]; simpa using hk
    · have hdiv : n / 16 < n := Nat.div_lt_self (by omega) (by omega)
      have hk2 : 2 ≤ k := by
        by_contra hcon
        have : k = 1 := by omega
        subst this
        simp at hlt
        omega
      rw [natToHex_recur n (by omega)]
      have hstep : n / 16 < 16 ^ (k - 1) := by
        rw [Nat.div_lt_iff_lt_mul (by omega : 0 < 16)]
        calc n < 16 ^ k := hlt
        _ = 16 ^ (k - 1) * 16 := by
          rw [← pow_succ]
          congr 1
          omega
      have := ih (n / 16) hdiv (k - 1) (by omega) hstep
      simp only [List.length_append, List.length_cons, List.length_nil]
      omega

theorem natToHex_length_ge (k : Nat) :
    ∀ n : Nat, 16 ^ k ≤ n → k + 1 ≤ (natToHex n).length := by
  induction k with
  | zero => intro n _; simpa using natToHex_length_pos n
  | succ k ih =>
    intro n hn
    have h16 : 16 ≤ n := le_trans (by
      calc (16 : Nat) = 16 ^ 1 := (pow_one 16).symm
      _ ≤ 16 ^ (k + 1) := Nat.pow_le_pow_right (by omega) (by omega)) hn
    rw [natToHex_recur n h16]
    have hstep : 16 ^ k ≤ n / 16 := by
      rw [Nat.le_div_iff_mul_le (by omega : 0 < 16)]
      calc 16 ^ k * 16 = 16 ^ (k + 1) := (pow_succ 16 k).symm
      _ ≤ n := hn
    have := ih (n / 16) hstep
    simp only [List.length_append, List.length_cons, List.length_nil]
    omega

theorem two_pow_64_eq : (2 : Nat) ^ 64 = 16 ^ 16 := by norm_num

/-! ## Memory-map line parsing (lines 24–45 of `extract_addr_range_from_mmap.py`)

The Python code matches each line against the regex
`^([0-9A-Fa-f]+)-([0-9A-Fa-f]+)\s+(\S+)\s+\S+\s+\S+\s+\S+\s*(.*)$`.
Every repeated class in this pattern is followed by a disjoint class or a
fixed character outside the class (`[0-9A-Fa-f]+` by `-` or `\s`, `\s+` by
`\S`, `\S+` by `\s`), so greedy matching with backtracking coincides with
maximal munch, which is what `token` below implements.  Lines are modelled
without their trailing newline, `\s` as the six ASCII whitespace
characters, and `\S` and `.` as their complements on such lines.
-/

/-- Python regex `\s` on ASCII text: space, tab, newline, carriage return,
vertical tab, form feed. -/
def isSpaceChar (c : Char) : Bool :=
  c = ' ' || c = '\t' || c = '\n' || c = '\r' ||
  c = Char.ofNat 11 || c = Char.ofNat 12

/-- Membership in the regex class `[0-9A-Fa-f]`. -/
def isHexChar (c : Char) : Bool :=
  ('0' ≤ c && c ≤ '9') || ('a' ≤ c && c ≤ 'f') || ('A' ≤ c && c ≤ 'F')

/-- Maximal run of characters of a class; fails when the run is empty
(the regex quantifier is `+`). -/
def token (isTok : Char → Bool) (l : List Char) : Option (List Char × List Char) :=
  let t := l.takeWhile isTok
  if t.isEmpty then none else some (t, l.dropWhile isTok)

/-- A parsed memory-map line: the four captured groups of the regex
(start digits, end digits, permission string, path — possibly empty). -/
structure MapLine where
  startS : List Char
  endS : List Char
  perms : List Char
  path : List Char
deriving DecidableEq

/-- The fixed-format line pattern of `parse_and_merge_maps`: `none` models
a line the regex does not match (which the Python loop silently skips). -/
def parseLine (l : List Char) : Option MapLine := do
  let (startS, r1) ← token isHexChar l
  match r1 with
  | '-' :: r2 => do
    let (endS, r3) ← token isHexChar r2
    let r4 ← (token isSpaceChar r3).map (fun p => p.2)
    let (perms, r5) ← token (fun c => !isSpaceChar c) r4
    let r6 ← (token isSpaceChar r5).map (fun p => p.2)
    let (_offset, r7) ← token (fun c => !isSpaceChar c) r6
    let r8 ← (token isSpaceChar r7).map (fun p => p.2)
    let (_dev, r9) ← token (fun c => !isSpaceChar c) r8
    let r10 ← (token isSpaceChar r9).map (fun p => p.2)
    let (_inode, r11) ← token (fun c => !isSpaceChar c) r10
    let path := r11.dropWhile isSpaceChar
    some ⟨startS, endS, perms, path⟩
  | _ => none

/-- Python `os.path.basename`: everything after the last slash. -/
def basename (p : List Char) : List Char :=
  (p.reverse.takeWhile (fun c => c ≠ '/')).reverse

/-- Substring test, modelling Python's `lib in name`. -/
def isSubstring : List Char → List Char → Bool
  | pat, [] => pat.isEmpty
  | pat, c :: rest => pat.isPrefixOf (c :: rest) || isSubstring pat rest

/-- The retention condition of line 41–42 of the source: the path equals the
tracked binary path exactly and the permission string contains `x`, or the
base file name of the path contains one of the library patterns. -/
def retainLine (binary : List Char) (libs : List (List Char)) (ml : MapLine) : Bool :=
  (ml.path = binary && ml.perms.contains 'x') ||
  libs.any (fun lib => isSubstring lib (basename ml.path))

/-- Python `raw.setdefault(path, []).append(r)`: append the region to the
existing entry of `path`, or add a new `(path, [r])` entry at the end. -/
def addRaw (raw : List (List Char × List (Nat × Nat))) (path : List Char)
    (r : Nat × Nat) : List (List Char × List (Nat × Nat)) :=
  match raw with
  | [] => [(path, [r])]
  | (p, rs) :: rest =>
    if p = path then (p, rs ++ [r]) :: rest else (p, rs) :: addRaw rest path r

/-- One iteration of the reading loop of `parse_and_merge_maps`: skip lines
the pattern does not match, and record retained regions keyed by path. -/
def processLine (binary : List Char) (libs : List (List Char))
    (raw : List (List Char × List (Nat × Nat))) (line : List Char) :
    List (List Char × List (Nat × Nat)) :=
  match parseLine line with
  | none => raw
  | some ml =>
    if retainLine binary libs ml then
      addRaw raw ml.path (hexToNat ml.startS, hexToNat ml.endS)
    else raw

/-- The reading loop of `parse_and_merge_maps` over all lines of the maps
file, producing the `raw` dict (a path-keyed association list in first-seen
order). -/
def buildRaw (binary : List Char) (libs : List (List Char))
    (lines : List (List Char)) : List (List Char × List (Nat × Nat)) :=
  lines.foldl (processLine binary libs) []

/-- The result dict of `parse_and_merge_maps`: an optional `loop_range`
entry and an `excluded` path-keyed association list of hex interval lists. -/
structure ExtractionResult where
  loop_range : Option (List Char × List Char)
  excluded : List (List Char × List (List Char × List Char))
deriving DecidableEq

/-- The merging/output loop of `parse_and_merge_maps` (lines 48–74): each
path's regions are sorted and merged; the tracked binary's first merged
interval becomes `loop_range` (rendered as two 16-digit-padded hex strings),
every other path contributes its full merged interval list to `excluded`.
`headD` stands for the Python `merged_list[0]`, which is always in range
because a `raw` entry is created only together with its first region. -/
def mergeOutStep (binary : List Char) (res : ExtractionResult)
    (entry : List Char × List (Nat × Nat)) : ExtractionResult :=
  let ml := mergeRegions entry.2
  if entry.1 = binary then
    { loop_range := some (toHex16 (ml.headD (0, 0)).1, toHex16 (ml.headD (0, 0)).2),
      excluded := res.excluded }
  else
    { loop_range := res.loop_range,
      excluded := res.excluded ++ [(entry.1, ml.map (fun r => (toHex16 r.1, toHex16 r.2)))] }

def parse_and_merge_maps (lines : List (List Char)) (binary : List Char)
    (libs : List (List Char)) : ExtractionResult :=
  (buildRaw binary libs lines).foldl (mergeOutStep binary) ⟨none, []⟩

theorem natToHex_chars (n : Nat) :
    ∀ c ∈ natToHex n, ('0' ≤ c ∧ c ≤ '9') ∨ ('a' ≤ c ∧ c ≤ 'f') := by
  induction n using Nat.strong_induction_on with
  | _ n ih =>
    intro c hc
    by_cases h : n < 16
    · rw [natToHex_small n h] at hc
      simp at hc
      subst hc
      exact hexChar_range n h
    · have hdiv : n / 16 < n := Nat.div_lt_self (by omega) (by omega)
      rw [natToHex_recur n (by omega)] at hc
      rcases List.mem_append.mp hc with hm | hm
      · exact ih (n / 16) hdiv c hm
      · simp at hm
        subst hm
        exact hexChar_range (n % 16) (Nat.mod_lt n (by omega))

/-- Claim C7 (amended). Every address emitted in the extraction result goes
through `toHex16`; the rendered string always round-trips through
`int(s, 16)` and consists solely of lowercase hex characters, and it has
exactly 16 characters precisely when the address fits in 64 bits — Python's
`016x` format pads to a minimum width of 16 but never truncates, so larger
addresses render with more digits. -/
theorem C7_hex_roundtrip_and_width (n : Nat) :
    hexToNat (toHex16 n) = n ∧
    ((toHex16 n).length = 16 ↔ n < 2 ^ 64) ∧
    16 ≤ (toHex16 n).length ∧
    (∀ c ∈ toHex16 n, ('0' ≤ c ∧ c ≤ '9') ∨ ('a' ≤ c ∧ c ≤ 'f')) := by
  have hlen : (toHex16 n).length = (16 - (natToHex n).length) + (natToHex n).length := by
    simp [toHex16]
  refine ⟨?_, ⟨?_, ?_⟩, ?_, ?_⟩
  · rw [toHex16, hexToNat_replicate_zero, hexToNat_natToHex]
  · intro h16
    by_contra hge
    have : 16 + 1 ≤ (natToHex n).length := by
      apply natToHex_length_ge
      rw [← two_pow_64_eq]
      omega
    omega
  · intro hlt
    have hle : (natToHex n).length ≤ 16 := by
      apply natToHex_length_le n 16 (by omega)
      rw [← two_pow_64_eq]
      exact hlt
    omega
  · have := natToHex_length_pos n
    omega
  · intro c hc
    rw [toHex16] at hc
    rcases List.mem_append.mp hc with hm | hm
    · have : c = '0' := List.eq_of_mem_replicate hm
      subst this
      exact Or.inl (by decide)
    · exact natToHex_chars n c hm

/-- Witness for C7: at a concrete 64-bit address the rendered string has
exactly 16 characters. -/
theorem C7_witness : (toHex16 4096).length = 16 :=
  (C7_hex_roundtrip_and_width 4096).2.1.mpr (by norm_num)

/-- Counterexample for C7 as frozen: the claim asserts the emitted string is
always exactly 16 characters regardless of the address's magnitude, but a
maps line whose start address is 2^64 (17 hex digits, accepted by the line
pattern) flows through `parse_and_merge_maps` into a 17-character
`loop_range` entry. -/
theorem C7_counterexample :
    (parse_and_merge_maps
        ["10000000000000000-10000000000000001 r-xp 0 0 0 /bin/a".data]
        "/bin/a".data []).loop_range =
      some (toHex16 (2 ^ 64), toHex16 (2 ^ 64 + 1)) ∧
    (toHex16 (2 ^ 64)).length = 17 := by
  constructor
  · rfl
  · have hge : 16 + 1 ≤ (natToHex (2 ^ 64)).length := by
      apply natToHex_length_ge
      rw [← two_pow_64_eq]
    have hle : (natToHex (2 ^ 64)).length ≤ 17 := by
      apply natToHex_length_le _ 17 (by omega)
      norm_num
    have : (toHex16 (2 ^ 64)).length =
        (16 - (natToHex (2 ^ 64)).length) + (natToHex (2 ^ 64)).length := by
      simp [toHex16]
    omega

theorem isSubstring_iff (pat : List Char) :
    ∀ s : List Char, isSubstring pat s = true ↔
      ∃ pre post : List Char, s = pre ++ pat ++ post := by
  intro s
  induction s with
  | nil =>
    simp only [isSubstring, List.isEmpty_iff]
    constructor
    · intro h
      exact ⟨[], [], by simp [h]⟩
    · rintro ⟨pre, post, h⟩
      rcases List.append_eq_nil.mp (List.append_eq_nil.mp h.symm).1 with ⟨_, h2⟩
      exact h2
  | cons c rest ih =>
    simp only [isSubstring, Bool.or_eq_true, List.isPrefixOf_iff_prefix, ih]
    constructor
    · rintro (⟨t, ht⟩ | ⟨pre, post, h⟩)
      · exact ⟨[], t, by simp [ht]⟩
      · exact ⟨c :: pre, post, by simp [h]⟩
    · rintro ⟨pre, post, h⟩
      cases pre with
      | nil =>
        left
        exact ⟨post, by simpa using h.symm⟩
      | cons c2 pre2 =>
        right
        simp at h
        exact ⟨pre2, post, by rw [h.2, List.append_assoc]⟩

/-- Claim C3. For each memory-map line: when the fixed line pattern matches,
the parsed region is recorded in `raw` if and only if either the path equals
the tracked binary path exactly and the permission string contains the
executable flag `x`, or the base file name of the path contains one of the
excluded library patterns as a substring (permissions do not matter for the
latter); when the pattern does not match, the line leaves the `raw` dict
untouched, raises no error, and contributes nothing to the extraction
result. -/
theorem C3_retention_rule (binary : List Char) (libs : List (List Char))
    (raw : List (List Char × List (Nat × Nat))) (line : List Char) :
    (∀ ml : MapLine, parseLine line = some ml →
      (retainLine binary libs ml = true ↔
        (ml.path = binary ∧ 'x' ∈ ml.perms) ∨
        ∃ lib ∈ libs, ∃ pre post : List Char, basename ml.path = pre ++ lib ++ post) ∧
      processLine binary libs raw line =
        (if retainLine binary libs ml then
          addRaw raw ml.path (hexToNat ml.startS, hexToNat ml.endS)
        else raw)) ∧
    (parseLine line = none →
      processLine binary libs raw line = raw ∧
      ∀ pre post : List (List Char),
        parse_and_merge_maps (pre ++ line :: post) binary libs =
          parse_and_merge_maps (pre ++ post) binary libs) := by
  constructor
  · intro ml hml
    constructor
    · simp [retainLine, List.any_eq_true, isSubstring_iff]
    · simp [processLine, hml]
  · intro hnone
    have haux : ∀ X : List (List Char × List (Nat × Nat)),
        processLine binary libs X line = X := by
      intro X
      simp [processLine, hnone]
    refine ⟨haux raw, fun pre post => ?_⟩
    have hfold : buildRaw binary libs (pre ++ line :: post) =
        buildRaw binary libs (pre ++ post) := by
      unfold buildRaw
      rw [List.foldl_append, List.foldl_append, List.foldl_cons, haux]
    unfold parse_and_merge_maps
    rw [hfold]

/-- Witness for C3: the non-matching line `zzz` is skipped silently and
contributes nothing to the extraction result. -/
theorem C3_witness :
    parse_and_merge_maps ["zzz".data] "/bin/a".data [] =
      parse_and_merge_maps [] "/bin/a".data [] := by
  have h := ((C3_retention_rule "/bin/a".data [] [] "zzz".data).2 (by decide)).2 [] []
  simpa using h

theorem addRaw_keys (path : List Char) (r : Nat × Nat) :
    ∀ raw : List (List Char × List (Nat × Nat)),
      (addRaw raw path r).map Prod.fst =
        (if path ∈ raw.map Prod.fst then raw.map Prod.fst
         else raw.map Prod.fst ++ [path]) := by
  intro raw
  induction raw with
  | nil => simp [addRaw]
  | cons e rest ih =>
    by_cases h : e.1 = path
    · simp [addRaw, h]
    · obtain ⟨p, rs⟩ := e
      simp only at h
      simp only [addRaw, if_neg h, List.map_cons, ih]
      by_cases hmem : path ∈ rest.map Prod.fst
      · simp [hmem, h, if_pos (List.mem_cons_of_mem _ hmem)]
      · have hnp : path ∉ (p :: rest.map Prod.fst) := by
          intro hc
          rcases List.mem_cons.mp hc with hc1 | hc2
          · exact h hc1.symm
          · exact hmem hc2
        simp [hmem, hnp]

theorem addRaw_nodup (path : List Char) (r : Nat × Nat)
    (raw : List (List Char × List (Nat × Nat)))
    (h : (raw.map Prod.fst).Nodup) : ((addRaw raw path r).map Prod.fst).Nodup := by
  rw [addRaw_keys]
  by_cases hmem : path ∈ raw.map Prod.fst
  · simpa [hmem] using h
  · simp only [if_neg hmem]
    rw [List.nodup_append]
    refine ⟨h, List.nodup_singleton path, ?_⟩
    intro a ha hb
    rw [List.mem_singleton] at hb
    subst hb
    exact hmem ha

theorem buildRaw_aux_nodup (binary : List Char) (libs : List (List Char)) :
    ∀ (lines : List (List Char)) (raw : List (List Char × List (Nat × Nat))),
      (raw.map Prod.fst).Nodup →
      ((lines.foldl (processLine binary libs) raw).map Prod.fst).Nodup := by
  intro lines
  induction lines with
  | nil => intro raw h; simpa using h
  | cons line rest ih =>
    intro raw h
    rw [List.foldl_cons]
    apply ih
    unfold processLine
    cases parseLine line with
    | none => simpa using h
    | some ml =>
      by_cases hr : retainLine binary libs ml
      · simpa [hr] using addRaw_nodup ml.path _ raw h
      · simpa [hr] using h

theorem buildRaw_nodup (binary : List Char) (libs : List (List Char))
    (lines : List (List Char)) :
    ((buildRaw binary libs lines).map Prod.fst).Nodup :=
  buildRaw_aux_nodup binary libs lines [] (by simp)

theorem lookup_split {β : Type} (k : List Char) (v : β) :
    ∀ l : List (List Char × β), l.lookup k = some v →
      ∃ l1 l2, l = l1 ++ (k, v) :: l2 ∧ k ∉ l1.map Prod.fst := by
  intro l
  induction l with
  | nil => intro h; simp [List.lookup] at h
  | cons e rest ih =>
    intro h
    obtain ⟨p, b⟩ := e
    rw [List.lookup_cons] at h
    by_cases hk : k = p
    · subst hk
      simp only [beq_self_eq_true] at h
      obtain rfl : b = v := by simpa using h
      exact ⟨[], rest, by simp, by simp⟩
    · rw [beq_false_of_ne hk] at h
      simp only at h
      obtain ⟨l1, l2, hsplit, hnot⟩ := ih h
      refine ⟨(p, b) :: l1, l2, by simp [hsplit], ?_⟩
      intro hc
      rcases List.mem_cons.mp hc with hc1 | hc2
      · exact hk hc1
      · exact hnot hc2

theorem foldOut_loop_range_of_no_binary (binary : List Char) :
    ∀ (raw : List (List Char × List (Nat × Nat))) (res : ExtractionResult),
      (∀ e ∈ raw, e.1 ≠ binary) →
      (raw.foldl (mergeOutStep binary) res).loop_range = res.loop_range := by
  intro raw
  induction raw with
  | nil => intro res _; rfl
  | cons e rest ih =>
    intro res hne
    rw [List.foldl_cons]
    rw [ih _ (fun x hx => hne x (List.mem_cons_of_mem e hx))]
    have he : e.1 ≠ binary := hne e (List.mem_cons_self e rest)
    simp [mergeOutStep, if_neg he]

theorem foldOut_excluded_not_binary (binary : List Char) :
    ∀ (raw : List (List Char × List (Nat × Nat))) (res : ExtractionResult),
      (∀ e ∈ res.excluded, e.1 ≠ binary) →
      ∀ e ∈ (raw.foldl (mergeOutStep binary) res).excluded, e.1 ≠ binary := by
  intro raw
  induction raw with
  | nil => intro res h; simpa using h
  | cons x rest ih =>
    intro res h
    rw [List.foldl_cons]
    apply ih
    by_cases hx : x.1 = binary
    · simpa [mergeOutStep, if_pos hx] using h
    · simp only [mergeOutStep, if_neg hx]
      intro e he
      rcases List.mem_append.mp he with hm | hm
      · exact h e hm
      · simp only [List.mem_singleton] at hm
        subst hm
        exact hx

/-- Claim C10. When the tracked binary's retained mappings merge into more
than one disjoint interval, `parse_and_merge_maps` emits only the first
(lowest-start) merged interval as `loop_range`; the binary's remaining
intervals appear nowhere in the result, since only the other paths
contribute entries to `excluded`, and no error is raised. -/
theorem C10_loop_range_keeps_only_first_interval
    (lines : List (List Char)) (binary : List Char) (libs : List (List Char))
    (r : List (Nat × Nat)) (i0 i1 : Nat × Nat) (rest : List (Nat × Nat))
    (hlook : (buildRaw binary libs lines).lookup binary = some r)
    (hmerge : mergeRegions r = i0 :: i1 :: rest) :
    (parse_and_merge_maps lines binary libs).loop_range =
      some (toHex16 i0.1, toHex16 i0.2) ∧
    ∀ e ∈ (parse_and_merge_maps lines binary libs).excluded, e.1 ≠ binary := by
  obtain ⟨raw1, raw2, hsplit, hnot1⟩ := lookup_split binary r _ hlook
  have hnodup := buildRaw_nodup binary libs lines
  rw [hsplit] at hnodup
  have hnot2 : ∀ e ∈ raw2, e.1 ≠ binary := by
    rw [List.map_append, List.map_cons] at hnodup
    have hr2 : (binary :: raw2.map Prod.fst).Nodup := hnodup.of_append_right
    have hbin : binary ∉ raw2.map Prod.fst := (List.nodup_cons.mp hr2).1
    intro e he heq
    exact hbin (heq ▸ List.mem_map_of_mem Prod.fst he)
  unfold parse_and_merge_maps
  rw [hsplit, List.foldl_append, List.foldl_cons]
  have hstep : mergeOutStep binary (raw1.foldl (mergeOutStep binary) ⟨none, []⟩) (binary, r) =
      { loop_range := some (toHex16 i0.1, toHex16 i0.2),
        excluded := (raw1.foldl (mergeOutStep binary) ⟨none, []⟩).excluded } := by
    simp [mergeOutStep, hmerge]
  rw [hstep]
  constructor
  · rw [foldOut_loop_range_of_no_binary binary raw2 _ hnot2]
  · apply foldOut_excluded_not_binary binary raw2 _
    show ∀ e ∈ (raw1.foldl (mergeOutStep binary) ⟨none, []⟩).excluded, e.1 ≠ binary
    apply foldOut_excluded_not_binary binary raw1 ⟨none, []⟩
    intro e he
    simp at he

/-- Witness for C10: with the binary mapped executable at two disjoint
ranges, only the first merged interval is reported as `loop_range`. -/
theorem C10_witness :
    (parse_and_merge_maps
        ["1000-2000 r-xp 0 0 0 /bin/a".data, "4000-5000 r-xp 0 0 0 /bin/a".data]
        "/bin/a".data []).loop_range = some (toHex16 4096, toHex16 8192) :=
  (C10_loop_range_keeps_only_first_interval
    ["1000-2000 r-xp 0 0 0 /bin/a".data, "4000-5000 r-xp 0 0 0 /bin/a".data]
    "/bin/a".data [] [(4096, 8192), (16384, 20480)] (4096, 8192) (16384, 20480) []
    (by decide) (by decide)).1

/-! ## BBV construction (lines 9–66 of `k_means_clustering.py`)

Python dicts keyed by basic-block address strings are modelled as
association lists (`List (String × Nat)`): insertion order is the list
order and the keys of an actual dict are distinct (`Nodup` hypotheses in
the theorems).  `dict[k]` is `List.lookup`, whose `none` result models
the `KeyError` the Python subscript raises.  The region-data document
keyed `"0"`, ..., `"R-1"` is modelled positionally as `List RegionData`;
`format_bbvs` reads `bb_inst_map` only from the final region.  The float
divisions are modelled over `ℚ`, and a `ZeroDivisionError` as `none`.
-/

/-- Line 9–13: assigns a unique dense id to each basic-block address, in
first-seen key order of the canonical map. -/
def form_bb_id_map (bb_inst_map : List (String × Nat)) : List (String × Nat) :=
  bb_inst_map.enum.map (fun p => (p.2.1, p.1))

/-- Lines 16–26: an array holding, at each block id, the static instruction
count of that block.  The lookup `bb_id_map[addr]` is total here in the
Python code (both maps share their keys) but is still modelled fallibly. -/
def from_bb_id_inst_array (bb_id_map : List (String × Nat))
    (bb_inst_map : List (String × Nat)) : Option (List Nat) :=
  bb_inst_map.foldlM
    (fun arr p => (bb_id_map.lookup p.1).map (fun id => arr.set id p.2))
    (List.replicate bb_id_map.length 0)

/-- Lines 29–42: the weighted BBV; `none` models the `KeyError` raised by
`bb_id_map[addr]` when a region references an address absent from the
canonical map.  `getD` stands for the Python `bb_inst_array[bb_id]`, whose
index is always in range because ids come from `bb_id_map`. -/
def form_weighted_bbv_array (raw_bbv : List (String × Nat))
    (bb_id_map : List (String × Nat)) (bb_inst_array : List Nat) : Option (List Nat) :=
  raw_bbv.foldlM
    (fun arr p => (bb_id_map.lookup p.1).map
      (fun id => arr.set id (p.2 * bb_inst_array.getD id 0)))
    (List.replicate bb_id_map.length 0)

/-- One region of the execution-data document: its dynamic block counts,
its instruction length, and the static block map (read only on the final
region by `format_bbvs`). -/
structure RegionData where
  global_bbv : List (String × Nat)
  global_length : Nat
  bb_inst_map : List (String × Nat)
deriving DecidableEq

/-- The loop body of lines 57–64: one region's weighted BBV, normalized by
its `global_length`.  `none` models a `KeyError` inside
`form_weighted_bbv_array` and the `ZeroDivisionError` of `x / 0` (which
Python only reaches when the weighted list has at least one element). -/
def normalize_region (bb_id_map : List (String × Nat)) (bb_inst_array : List Nat)
    (region : RegionData) : Option (List ℚ) :=
  match form_weighted_bbv_array region.global_bbv bb_id_map bb_inst_array with
  | none => none
  | some w =>
    w.mapM (fun x : Nat =>
      if region.global_length = 0 then none
      else some ((x : ℚ) / (region.global_length : ℚ)))

/-- Lines 45–66: normalized weighted BBVs for all regions, in region-index
order.  `none` models the exceptions of the Python code, including the
subscript `output[str(len(output)-1)]` on an empty document. -/
def format_bbvs (output : List RegionData) : Option (List (List ℚ)) :=
  match output.getLast? with
  | none => none
  | some lastRegion =>
    let bb_id_map := form_bb_id_map lastRegion.bb_inst_map
    match from_bb_id_inst_array bb_id_map lastRegion.bb_inst_map with
    | none => none
    | some bb_inst_array =>
      output.mapM (normalize_region bb_id_map bb_inst_array)

theorem lookup_eq_none_iff {β : Type} (a : String) :
    ∀ l : List (String × β), l.lookup a = none ↔ a ∉ l.map Prod.fst := by
  intro l
  induction l with
  | nil => simp
  | cons e rest ih =>
    obtain ⟨k, b⟩ := e
    rw [List.lookup_cons]
    by_cases hk : a = k
    · subst hk
      simp [beq_self_eq_true]
    · rw [beq_false_of_ne hk]
      simpa [hk] using ih

theorem lookup_self {β : Type} :
    ∀ (M : List (String × β)) (i : Nat) (q : String × β),
      (M.map Prod.fst).Nodup → M[i]? = some q → M.lookup q.1 = some q.2 := by
  intro M
  induction M with
  | nil => intro i q _ h; simp at h
  | cons e rest ih =>
    intro i q hnd h
    rw [List.map_cons, List.nodup_cons] at hnd
    cases i with
    | zero =>
      obtain rfl : e = q := by simpa using h
      rw [List.lookup_cons, beq_self_eq_true]
    | succ i =>
      have hq : rest[i]? = some q := by simpa using h
      have hqmem : q ∈ rest := by
        rw [List.mem_iff_getElem?]
        exact ⟨i, hq⟩
      have hne : q.1 ≠ e.1 := by
        intro hc
        exact hnd.1 (hc ▸ List.mem_map_of_mem Prod.fst hqmem)
      rw [List.lookup_cons, beq_false_of_ne hne]
      exact ih i q hnd.2 hq

theorem idmap_enumFrom_lookup_inv (a : String) :
    ∀ (M : List (String × Nat)) (n j : Nat),
      ((M.enumFrom n).map (fun p => (p.2.1, p.1))).lookup a = some j →
      ∃ t q, j = n + t ∧ M[t]? = some q ∧ q.1 = a := by
  intro M
  induction M with
  | nil => intro n j h; simp at h
  | cons x xs ih =>
    intro n j h
    rw [List.enumFrom_cons, List.map_cons, List.lookup_cons] at h
    by_cases hk : a = x.1
    · rw [beq_iff_eq.mpr hk] at h
      obtain rfl : n = j := by simpa using h
      exact ⟨0, x, by omega, by simp, hk.symm⟩
    · rw [beq_false_of_ne hk] at h
      simp only at h
      obtain ⟨t, q, hj, hget, ha⟩ := ih (n + 1) j h
      exact ⟨t + 1, q, by omega, by simpa using hget, ha⟩

theorem idmap_enumFrom_lookup (M : List (String × Nat))
    (hnd : (M.map Prod.fst).Nodup) :
    ∀ (t : Nat) (q : String × Nat) (n : Nat), M[t]? = some q →
      ((M.enumFrom n).map (fun p => (p.2.1, p.1))).lookup q.1 = some (n + t) := by
  induction M with
  | nil => intro t q n h; simp at h
  | cons x xs ih =>
    intro t q n h
    rw [List.map_cons, List.nodup_cons] at hnd
    rw [List.enumFrom_cons, List.map_cons, List.lookup_cons]
    cases t with
    | zero =>
      obtain rfl : x = q := by simpa using h
      rw [beq_self_eq_true]
      simp
    | succ t =>
      have hq : xs[t]? = some q := by simpa using h
      have hqmem : q ∈ xs := by
        rw [List.mem_iff_getElem?]
        exact ⟨t, hq⟩
      have hne : q.1 ≠ x.1 := by
        intro hc
        exact hnd.1 (hc ▸ List.mem_map_of_mem Prod.fst hqmem)
      rw [beq_false_of_ne hne]
      simp only
      rw [ih hnd.2 t q (n + 1) hq]
      congr 1
      omega

theorem idmap_lookup (M : List (String × Nat)) (hnd : (M.map Prod.fst).Nodup)
    (t : Nat) (q : String × Nat) (h : M[t]? = some q) :
    (form_bb_id_map M).lookup q.1 = some t := by
  have := idmap_enumFrom_lookup M hnd t q 0 h
  simpa [form_bb_id_map, List.enum] using this

theorem idmap_lookup_inv (M : List (String × Nat)) (a : String) (j : Nat)
    (h : (form_bb_id_map M).lookup a = some j) :
    ∃ q, M[j]? = some q ∧ q.1 = a := by
  have h2 : ((M.enumFrom 0).map (fun p => (p.2.1, p.1))).lookup a = some j := by
    simpa [form_bb_id_map, List.enum] using h
  obtain ⟨t, q, hj, hget, ha⟩ := idmap_enumFrom_lookup_inv a M 0 j h2
  exact ⟨q, by simpa [hj] using hget, ha⟩

theorem idmap_keys (M : List (String × Nat)) :
    (form_bb_id_map M).map Prod.fst = M.map Prod.fst := by
  have haux : ∀ (L : List (String × Nat)) (n : Nat),
      ((L.enumFrom n).map (fun p => (p.2.1, p.1))).map Prod.fst = L.map Prod.fst := by
    intro L
    induction L with
    | nil => intro n; simp
    | cons x xs ih => intro n; simp [List.enumFrom_cons, ih (n + 1)]
  simpa [form_bb_id_map, List.enum] using haux M 0

theorem idmap_length (M : List (String × Nat)) :
    (form_bb_id_map M).length = M.length := by
  simp [form_bb_id_map]

theorem foldlM_set_length (idMap : List (String × Nat)) (f : Nat → Nat → Nat) :
    ∀ (items : List (String × Nat)) (arr res : List Nat),
      items.foldlM (fun a p => (idMap.lookup p.1).map (fun id => a.set id (f id p.2)))
        arr = some res →
      res.length = arr.length := by
  intro items
  induction items with
  | nil =>
    intro arr res h
    simp at h
    simp [← h]
  | cons p rest ih =>
    intro arr res h
    rw [List.foldlM_cons] at h
    cases hl : idMap.lookup p.1 with
    | none => rw [hl] at h; simp at h
    | some id =>
      rw [hl] at h
      simp only [Option.map_some'] at h
      have := ih (arr.set id (f id p.2)) res (by simpa using h)
      simpa using this

theorem foldlM_set_char (M : List (String × Nat)) (hnd : (M.map Prod.fst).Nodup)
    (f : Nat → Nat → Nat) :
    ∀ (items : List (String × Nat)) (arr : List Nat),
      (∀ p ∈ items, p.1 ∈ M.map Prod.fst) →
      (items.map Prod.fst).Nodup →
      ∃ res,
        items.foldlM
          (fun a p => ((form_bb_id_map M).lookup p.1).map (fun id => a.set id (f id p.2)))
          arr = some res ∧
        res.length = arr.length ∧
        ∀ i q, M[i]? = some q → i < arr.length →
          res[i]? = some (((items.lookup q.1).map (fun c => f i c)).getD (arr.getD i 0)) := by
  intro items
  induction items with
  | nil =>
    intro arr _ _
    refine ⟨arr, by simp, rfl, ?_⟩
    intro i q hq hi
    simp [List.getElem?_eq_getElem hi, List.getD_eq_getElem?_getD,
      List.getElem?_eq_getElem hi]
  | cons p rest ih =>
    intro arr hsub hnd2
    rw [List.map_cons, List.nodup_cons] at hnd2
    have hp1 : p.1 ∈ M.map Prod.fst := hsub p (List.mem_cons_self _ _)
    obtain ⟨q0, hq0mem, hq0a⟩ := List.mem_map.mp hp1
    obtain ⟨t, hq0get⟩ := List.mem_iff_getElem?.mp hq0mem
    have hidx : (form_bb_id_map M).lookup p.1 = some t := by
      rw [← hq0a]
      exact idmap_lookup M hnd t q0 hq0get
    obtain ⟨res, hres, hlen, hent⟩ := ih (arr.set t (f t p.2))
      (fun x hx => hsub x (List.mem_cons_of_mem _ hx)) hnd2.2
    refine ⟨res, ?_, by simpa using hlen, ?_⟩
    · rw [List.foldlM_cons, hidx]
      simpa using hres
    · intro i q hq hi
      by_cases hit : i = t
      · subst hit
        have hqq0 : q0 = q := Option.some.inj (hq0get.symm.trans hq)
        subst hqq0
        have hlook : (p :: rest).lookup q0.1 = some p.2 := by
          rw [hq0a, List.lookup_cons]
          rw [show (p.1 == p.1) = true from beq_self_eq_true p.1]
        have hrest : rest.lookup q0.1 = none := by
          rw [lookup_eq_none_iff, hq0a]
          exact hnd2.1
        rw [hlook, hent i q0 hq (by simpa using hi), hrest]
        simp [List.getD_eq_getElem?_getD, List.getElem?_set_self hi]
      · have hq1ne : q.1 ≠ p.1 := by
          intro hc
          have h1 : (form_bb_id_map M).lookup q.1 = some i := idmap_lookup M hnd i q hq
          rw [hc, hidx] at h1
          exact hit (by simpa using h1.symm)
        have hlook : (p :: rest).lookup q.1 = rest.lookup q.1 := by
          rw [List.lookup_cons, beq_false_of_ne hq1ne]
        rw [hlook, hent i q hq (by simpa using hi)]
        congr 2
        simp [List.getD_eq_getElem?_getD,
          List.getElem?_set_ne (fun hc => hit hc.symm)]

theorem mapM_char {α β : Type} (g : α → Option β) (P : α → β → Prop) :
    ∀ l : List α, (∀ x ∈ l, ∃ y, g x = some y ∧ P x y) →
      ∃ ys : List β, l.mapM g = some ys ∧ ys.length = l.length ∧
        ∀ (r : Nat) (x : α), l[r]? = some x → ∃ y, ys[r]? = some y ∧ P x y := by
  intro l
  induction l with
  | nil =>
    intro _
    exact ⟨[], rfl, rfl, by intro r x h; simp at h⟩
  | cons a as ih =>
    intro h
    obtain ⟨y, hy, hP⟩ := h a (List.mem_cons_self _ _)
    obtain ⟨ys, hys, hlen, hent⟩ := ih (fun x hx => h x (List.mem_cons_of_mem _ hx))
    refine ⟨y :: ys, ?_, by simp [hlen], ?_⟩
    · rw [List.mapM_cons, hy, hys]
      rfl
    · intro r x hr
      cases r with
      | zero =>
        obtain rfl : a = x := by simpa using hr
        exact ⟨y, by simp, hP⟩
      | succ r =>
        obtain ⟨y2, hy2, hP2⟩ := hent r x (by simpa using hr)
        exact ⟨y2, by simpa using hy2, hP2⟩

theorem mapM_none {α β : Type} (g : α → Option β) :
    ∀ l : List α, (∃ x ∈ l, g x = none) → l.mapM g = none := by
  intro l
  induction l with
  | nil =>
    rintro ⟨x, hx, _⟩
    simp at hx
  | cons a as ih =>
    rintro ⟨x, hx, hnone⟩
    rw [List.mapM_cons]
    rcases List.mem_cons.mp hx with rfl | hmem
    · rw [hnone]
      rfl
    · cases hga : g a with
      | none => rfl
      | some y =>
        rw [ih ⟨x, hmem, hnone⟩]
        rfl

theorem mapM_div (L : Nat) (hL : L ≠ 0) :
    ∀ w : List Nat,
      (w.mapM (fun x : Nat => if L = 0 then none else some ((x : ℚ) / (L : ℚ)))) =
        some (w.map (fun x : Nat => (x : ℚ) / (L : ℚ))) := by
  intro w
  induction w with
  | nil => rfl
  | cons x xs ih =>
    rw [List.mapM_cons, if_neg hL, ih]
    rfl

theorem foldlM_set_none (idMap : List (String × Nat)) (f : Nat → Nat → Nat) :
    ∀ (items : List (String × Nat)) (arr : List Nat),
      (∃ p ∈ items, idMap.lookup p.1 = none) →
      items.foldlM (fun a p => (idMap.lookup p.1).map (fun id => a.set id (f id p.2)))
        arr = none := by
  intro items
  induction items with
  | nil =>
    rintro arr ⟨p, hp, _⟩
    simp at hp
  | cons x rest ih =>
    rintro arr ⟨p, hp, hnone⟩
    rw [List.foldlM_cons]
    rcases List.mem_cons.mp hp with rfl | hmem
    · rw [hnone]
      rfl
    · cases hlx : idMap.lookup x.1 with
      | none => rfl
      | some id =>
        simp only [Option.map_some']
        have := ih (arr.set id (f id x.2)) ⟨p, hmem, hnone⟩
        simpa using this

theorem option_map_mul_getD (o : Option Nat) (k : Nat) :
    (o.map (fun c => c * k)).getD 0 = o.getD 0 * k := by
  cases o <;> simp

/-- Claim C2. `format_bbvs` takes the canonical static block map from the
document's last region, assigns dense ids `0..n-1` in that map's first-seen
key order, and returns one row per region (in region order) whose entry at
the id of canonical block `q` equals the region's dynamic count for `q`'s
address (0 when absent from the region's raw map) times `q`'s static
instruction count, divided by the region's `global_length`; in particular
the canonical map `{A:10, B:20}` with one region of raw counts `{A:3, B:1}`
and length 100 yields the normalized row `[0.30, 0.20]`. -/
theorem C2_format_bbvs_normalized_rows (output : List RegionData) (lastR : RegionData)
    (hlast : output.getLast? = some lastR)
    (hnd : (lastR.bb_inst_map.map Prod.fst).Nodup)
    (hsub : ∀ reg ∈ output, ∀ p ∈ reg.global_bbv, p.1 ∈ lastR.bb_inst_map.map Prod.fst)
    (hndr : ∀ reg ∈ output, (reg.global_bbv.map Prod.fst).Nodup)
    (hlen : ∀ reg ∈ output, reg.global_length ≠ 0) :
    (∃ bbvs : List (List ℚ), format_bbvs output = some bbvs ∧
      bbvs.length = output.length ∧
      ∀ (r : Nat) (reg : RegionData), output[r]? = some reg →
        ∃ row : List ℚ, bbvs[r]? = some row ∧
          row.length = lastR.bb_inst_map.length ∧
          ∀ (i : Nat) (q : String × Nat), lastR.bb_inst_map[i]? = some q →
            row[i]? = some
              ((((reg.global_bbv.lookup q.1).getD 0 * q.2 : Nat) : ℚ) /
                (reg.global_length : ℚ))) ∧
    format_bbvs [⟨[("A", 3), ("B", 1)], 100, [("A", 10), ("B", 20)]⟩] =
      some [[3 / 10, 1 / 5]] := by
  constructor
  · obtain ⟨instArr, hinst, hinstlen, hinstent⟩ :=
      foldlM_set_char lastR.bb_inst_map hnd (fun _ c => c) lastR.bb_inst_map
        (List.replicate (form_bb_id_map lastR.bb_inst_map).length 0)
        (fun p hp => List.mem_map_of_mem Prod.fst hp) hnd
    have hinst' : from_bb_id_inst_array (form_bb_id_map lastR.bb_inst_map)
        lastR.bb_inst_map = some instArr := hinst
    have hinstval : ∀ (i : Nat) (q : String × Nat),
        lastR.bb_inst_map[i]? = some q → instArr.getD i 0 = q.2 := by
      intro i q hq
      have hiM : i < lastR.bb_inst_map.length := (List.getElem?_eq_some_iff.mp hq).1
      have hia : i < (List.replicate (form_bb_id_map lastR.bb_inst_map).length 0).length := by
        simpa [idmap_length] using hiM
      have hent := hinstent i q hq hia
      rw [lookup_self lastR.bb_inst_map i q hnd hq] at hent
      simp only [Option.map_some', Option.getD_some] at hent
      simp [List.getD_eq_getElem?_getD, hent]
    have hfmt : format_bbvs output =
        output.mapM (normalize_region (form_bb_id_map lastR.bb_inst_map) instArr) := by
      simp only [format_bbvs, hlast, hinst']
    have hall : ∀ reg ∈ output, ∃ row : List ℚ,
        normalize_region (form_bb_id_map lastR.bb_inst_map) instArr reg = some row ∧
        (row.length = lastR.bb_inst_map.length ∧
          ∀ (i : Nat) (q : String × Nat), lastR.bb_inst_map[i]? = some q →
            row[i]? = some
              ((((reg.global_bbv.lookup q.1).getD 0 * q.2 : Nat) : ℚ) /
                (reg.global_length : ℚ))) := by
      intro reg hreg
      obtain ⟨w, hw, hwlen, hwent⟩ :=
        foldlM_set_char lastR.bb_inst_map hnd
          (fun id c => c * instArr.getD id 0) reg.global_bbv
          (List.replicate (form_bb_id_map lastR.bb_inst_map).length 0)
          (hsub reg hreg) (hndr reg hreg)
      have hw' : form_weighted_bbv_array reg.global_bbv
          (form_bb_id_map lastR.bb_inst_map) instArr = some w := hw
      refine ⟨w.map (fun x : Nat => (x : ℚ) / (reg.global_length : ℚ)), ?_, ?_, ?_⟩
      · rw [normalize_region, hw']
        exact mapM_div reg.global_length (hlen reg hreg) w
      · simp only [List.length_map]
        rw [hwlen, List.length_replicate, idmap_length]
      · intro i q hq
        have hiM : i < lastR.bb_inst_map.length := (List.getElem?_eq_some_iff.mp hq).1
        have hia : i < (List.replicate (form_bb_id_map lastR.bb_inst_map).length 0).length := by
          simpa [idmap_length] using hiM
        have hwi := hwent i q hq hia
        have hrep : (List.replicate (form_bb_id_map lastR.bb_inst_map).length 0).getD i 0 = 0 := by
          simp [List.getD_eq_getElem?_getD, List.getElem?_replicate_of_lt hia]
        rw [hrep] at hwi
        rw [List.getElem?_map, hwi]
        simp only [hinstval i q hq, option_map_mul_getD, Option.map_some']
    obtain ⟨bbvs, hmap, hmaplen, hmapent⟩ :=
      mapM_char (normalize_region (form_bb_id_map lastR.bb_inst_map) instArr)
        (fun reg row =>
          row.length = lastR.bb_inst_map.length ∧
          ∀ (i : Nat) (q : String × Nat), lastR.bb_inst_map[i]? = some q →
            row[i]? = some
              ((((reg.global_bbv.lookup q.1).getD 0 * q.2 : Nat) : ℚ) /
                (reg.global_length : ℚ)))
        output hall
    exact ⟨bbvs, hfmt.trans hmap, hmaplen, hmapent⟩
  · simp [format_bbvs, from_bb_id_inst_array, form_weighted_bbv_array, form_bb_id_map,
      normalize_region, List.getLast?, List.getLast, List.foldlM, List.mapM,
      List.mapM.loop, List.lookup, List.enum, List.enumFrom, List.replicate]
    norm_num

/-- Witness for C2: the spec's concrete example evaluates as claimed. -/
theorem C2_witness :
    format_bbvs [⟨[("A", 3), ("B", 1)], 100, [("A", 10), ("B", 20)]⟩] =
      some [[3 / 10, 1 / 5]] :=
  (C2_format_bbvs_normalized_rows
    [⟨[("A", 3), ("B", 1)], 100, [("A", 10), ("B", 20)]⟩]
    ⟨[("A", 3), ("B", 1)], 100, [("A", 10), ("B", 20)]⟩
    (by decide) (by decide) (by decide) (by decide) (by decide)).2

/-- Claim C4 (amended). The BBV build fails hard when a region's raw map
references an address absent from the canonical block-id map
(`form_weighted_bbv_array`'s lookup raises a `KeyError`), and `format_bbvs`
fails rather than dividing when a region's `global_length` is 0 — provided
the canonical block map is nonempty: with an empty canonical map the
weighted list is empty, Python's comprehension performs no division, and the
zero-length region silently yields an empty row (see the counterexample). -/
theorem C4_bbv_build_errors :
    (∀ (M raw : List (String × Nat)) (instArr : List Nat),
      (∃ p ∈ raw, p.1 ∉ M.map Prod.fst) →
      form_weighted_bbv_array raw (form_bb_id_map M) instArr = none) ∧
    (∀ (output : List RegionData) (lastR : RegionData) (reg : RegionData),
      output.getLast? = some lastR → lastR.bb_inst_map ≠ [] →
      reg ∈ output → reg.global_length = 0 →
      format_bbvs output = none) := by
  constructor
  · rintro M raw instArr ⟨p, hp, hnotin⟩
    have hnone : (form_bb_id_map M).lookup p.1 = none := by
      rw [lookup_eq_none_iff, idmap_keys]
      exact hnotin
    exact foldlM_set_none (form_bb_id_map M)
      (fun id c => c * instArr.getD id 0) raw
      (List.replicate (form_bb_id_map M).length 0) ⟨p, hp, hnone⟩
  · intro output lastR reg hlast hne hreg hzero
    simp only [format_bbvs, hlast]
    cases hinst : from_bb_id_inst_array (form_bb_id_map lastR.bb_inst_map)
        lastR.bb_inst_map with
    | none => rfl
    | some instArr =>
      apply mapM_none
      refine ⟨reg, hreg, ?_⟩
      rw [normalize_region]
      cases hw : form_weighted_bbv_array reg.global_bbv
          (form_bb_id_map lastR.bb_inst_map) instArr with
      | none => rfl
      | some w =>
        have hwl : w.length = lastR.bb_inst_map.length := by
          have := foldlM_set_length (form_bb_id_map lastR.bb_inst_map)
            (fun id c => c * instArr.getD id 0) reg.global_bbv
            (List.replicate (form_bb_id_map lastR.bb_inst_map).length 0) w hw
          simpa [idmap_length] using this
        cases w with
        | nil =>
          exfalso
          apply hne
          have : lastR.bb_inst_map.length = 0 := by simpa using hwl.symm
          exact List.length_eq_zero.mp this
        | cons x w2 =>
          simp only
          rw [List.mapM_cons, if_pos hzero]
          rfl

/-- Counterexample for C4 as frozen: with an empty canonical block map and a
region of `global_length` 0, `format_bbvs` does not fail — the weighted list
is empty, no division is evaluated, and an (empty) normalized vector is
produced for the region. -/
theorem C4_counterexample : format_bbvs [⟨[], 0, []⟩] = some [[]] := by
  decide

/-- Witness for C4: a raw map referencing the unknown address `X` aborts the
weighted-BBV build, and a zero-length region under a nonempty canonical map
aborts `format_bbvs`. -/
theorem C4_witness :
    form_weighted_bbv_array [("X", 1)] (form_bb_id_map []) [] = none ∧
    format_bbvs [⟨[], 0, [("A", 1)]⟩] = none :=
  ⟨C4_bbv_build_errors.1 [] [("X", 1)] [] ⟨("X", 1), by decide, by decide⟩,
   C4_bbv_build_errors.2 [⟨[], 0, [("A", 1)]⟩] ⟨[], 0, [("A", 1)]⟩ ⟨[], 0, [("A", 1)]⟩
     (by decide) (by decide) (by decide) rfl⟩

/-! ## Representative-region selection (lines 92–106 of `k_means_clustering.py`)

`np.where(labels == i)[0]` yields the ascending list of positions carrying
label `i`; `np.linalg.norm(bbvs[cluster_indices] - centers[i], axis=1)` is
the per-member Euclidean distance to the centroid, and `np.argmin` returns
the position of the first occurrence of the minimum, raising `ValueError`
on an empty array (modelled as `none`).  Distances are embedded as squared
Euclidean distances over `ℚ`: the square root is strictly monotone and
injective on nonnegative reals, so `argmin` over the norms and over the
squared norms agree, including the first-minimum tie rule; the theorems
state minimality through `Real.sqrt` of the squared distance, i.e. the
Euclidean distance itself. -/

/-- Ascending positions `j` with `labels[j] = i`, i.e.
`np.where(labels == i)[0]`. -/
def npWhereEq (labels : List Nat) (i : Nat) : List Nat :=
  (labels.enum.filter (fun p => p.2 == i)).map Prod.fst

/-- Squared Euclidean distance of two vectors (componentwise differences,
squared and summed). -/
def distSq (v w : List ℚ) : ℚ :=
  ((v.zip w).map (fun p => (p.1 - p.2) * (p.1 - p.2))).sum

/-- `np.argmin`: the index of the first occurrence of the minimum; `none`
models the `ValueError` raised on an empty array. -/
def np_argmin : List ℚ → Option Nat
  | [] => none
  | x :: xs =>
    match np_argmin xs with
    | none => some 0
    | some k => if xs.getD k 0 < x then some (k + 1) else some 0

/-- Lines 92–106: for each cluster id in `range(len(centers))`, the member
closest to the centroid is appended as the single element of that cluster's
entry; the dict in insertion order is an association list.  The whole
computation is `none` when any cluster is empty (the `ValueError` of
`np.argmin` aborts the Python function). -/
def find_representative_regions (bbvs : List (List ℚ)) (labels : List Nat)
    (centers : List (List ℚ)) : Option (List (Nat × List Nat)) :=
  (List.range centers.length).foldlM
    (fun acc i =>
      let cidx := npWhereEq labels i
      let dists := cidx.map (fun j => distSq (bbvs.getD j []) (centers.getD i []))
      (np_argmin dists).map (fun k => acc ++ [(i, [cidx.getD k 0])]))
    []

theorem np_argmin_none_iff : ∀ l : List ℚ, np_argmin l = none ↔ l = [] := by
  intro l
  cases l with
  | nil => simp [np_argmin]
  | cons x xs =>
    constructor
    · intro hcon
      simp only [np_argmin] at hcon
      cases hxs : np_argmin xs with
      | none => rw [hxs] at hcon; simp at hcon
      | some k =>
        rw [hxs] at hcon
        simp only at hcon
        split at hcon <;> simp at hcon
    · intro hcon
      simp at hcon

theorem np_argmin_spec : ∀ (l : List ℚ) (k : Nat), np_argmin l = some k →
    k < l.length ∧ ∀ t : Nat, t < l.length →
      l.getD k 0 ≤ l.getD t 0 ∧ (l.getD t 0 = l.getD k 0 → k ≤ t) := by
  intro l
  induction l with
  | nil => intro k h; simp [np_argmin] at h
  | cons x xs ih =>
    intro k h
    simp only [np_argmin] at h
    cases hxs : np_argmin xs with
    | none =>
      rw [hxs] at h
      simp only at h
      obtain rfl : 0 = k := by simpa using h
      obtain rfl : xs = [] := (np_argmin_none_iff xs).mp hxs
      refine ⟨by simp, ?_⟩
      intro t ht
      simp at ht
      subst ht
      simp
    | some k0 =>
      rw [hxs] at h
      simp only at h
      obtain ⟨hk0len, hk0⟩ := ih k0 hxs
      by_cases hlt : xs.getD k0 0 < x
      · rw [if_pos hlt] at h
        obtain rfl : k0 + 1 = k := by simpa using h
        refine ⟨by simpa using hk0len, ?_⟩
        intro t ht
        cases t with
        | zero =>
          simp only [List.getD_cons_succ, List.getD_cons_zero]
          exact ⟨le_of_lt hlt, fun he => absurd he.symm (ne_of_lt hlt)⟩
        | succ t =>
          simp only [List.getD_cons_succ]
          have := hk0 t (by simpa using ht)
          exact ⟨this.1, fun he => Nat.succ_le_succ (this.2 he)⟩
      · rw [if_neg hlt] at h
        obtain rfl : 0 = k := by simpa using h
        refine ⟨by simp, ?_⟩
        intro t ht
        cases t with
        | zero => simp
        | succ t =>
          simp only [List.getD_cons_succ, List.getD_cons_zero]
          have hxle : x ≤ xs.getD k0 0 := le_of_not_lt hlt
          have := hk0 t (by simpa using ht)
          exact ⟨le_trans hxle this.1, fun _ => Nat.zero_le _⟩

theorem enumFrom_fst_ge {α : Type} :
    ∀ (l : List α) (n : Nat) (p : Nat × α), p ∈ l.enumFrom n → n ≤ p.1 := by
  intro l
  induction l with
  | nil => intro n p h; simp at h
  | cons x xs ih =>
    intro n p h
    rw [List.enumFrom_cons] at h
    rcases List.mem_cons.mp h with rfl | hm
    · simp
    · exact le_trans (Nat.le_succ n) (ih (n + 1) p hm)

theorem enumFrom_pairwise_fst {α : Type} :
    ∀ (l : List α) (n : Nat),
      (l.enumFrom n).Pairwise (fun a b => a.1 < b.1) := by
  intro l
  induction l with
  | nil => intro n; simp
  | cons x xs ih =>
    intro n
    rw [List.enumFrom_cons, List.pairwise_cons]
    refine ⟨fun p hp => ?_, ih (n + 1)⟩
    exact lt_of_lt_of_le (Nat.lt_succ_self n) (enumFrom_fst_ge xs (n + 1) p hp)

theorem npWhereEq_sorted (labels : List Nat) (i : Nat) :
    (npWhereEq labels i).Pairwise (fun a b => a < b) := by
  rw [npWhereEq, List.pairwise_map]
  exact List.Pairwise.sublist (List.filter_sublist _) (enumFrom_pairwise_fst labels 0)

theorem npWhereEq_mem (labels : List Nat) (i j : Nat) :
    j ∈ npWhereEq labels i ↔ labels[j]? = some i := by
  rw [npWhereEq]
  constructor
  · intro h
    obtain ⟨p, hp, hfst⟩ := List.mem_map.mp h
    rw [List.mem_filter] at hp
    obtain ⟨hpmem, hpi⟩ := hp
    have hpi2 : p.2 = i := by simpa using hpi
    have := List.mem_enum_iff_getElem?.mp hpmem
    rw [← hfst, this, hpi2]
  · intro h
    refine List.mem_map.mpr ⟨(j, i), ?_, rfl⟩
    rw [List.mem_filter]
    exact ⟨List.mem_enum_iff_getElem?.mpr h, by simp⟩

theorem sorted_getD_mono (l : List Nat) (h : l.Pairwise (fun a b => a < b))
    (a b : Nat) (hab : a ≤ b) (hb : b < l.length) : l.getD a 0 ≤ l.getD b 0 := by
  rcases Nat.lt_or_ge a b with hlt | hge
  · have := (List.pairwise_iff_getElem.mp h) a b (by omega) hb hlt
    simp only [List.getD_eq_getElem?_getD]
    rw [List.getElem?_eq_getElem (by omega : a < l.length),
      List.getElem?_eq_getElem hb]
    exact le_of_lt this
  · have : a = b := by omega
    subst this
    exact le_refl _

theorem distSq_nonneg (v w : List ℚ) : 0 ≤ distSq v w := by
  apply List.sum_nonneg
  intro x hx
  obtain ⟨p, _, rfl⟩ := List.mem_map.mp hx
  exact mul_self_nonneg _

theorem foldRep_char (h : Nat → Option Nat) (v : Nat → Nat → Nat) :
    ∀ (l : List Nat) (acc : List (Nat × List Nat)),
      (∀ i ∈ l, (h i).isSome) →
      l.foldlM (fun acc i => (h i).map (fun k => acc ++ [(i, [v i k])])) acc =
        some (acc ++ l.map (fun i => (i, [v i ((h i).getD 0)]))) := by
  intro l
  induction l with
  | nil => intro acc _; simp
  | cons i rest ih =>
    intro acc hall
    have hi := hall i (List.mem_cons_self _ _)
    cases hk : h i with
    | none => rw [hk] at hi; simp at hi
    | some k =>
      rw [List.foldlM_cons, hk]
      simp only [Option.map_some']
      have := ih (acc ++ [(i, [v i k])]) (fun x hx => hall x (List.mem_cons_of_mem _ hx))
      rw [show ((some (acc ++ [(i, [v i k])]) : Option (List (Nat × List Nat))) >>=
          fun s => rest.foldlM (fun acc i => (h i).map (fun k => acc ++ [(i, [v i k])])) s) =
          rest.foldlM (fun acc i => (h i).map (fun k => acc ++ [(i, [v i k])]))
            (acc ++ [(i, [v i k])]) from rfl]
      rw [this, List.map_cons, hk]
      simp

theorem foldRep_none (h : Nat → Option Nat) (v : Nat → Nat → Nat) :
    ∀ (l : List Nat) (acc : List (Nat × List Nat)),
      (∃ i ∈ l, h i = none) →
      l.foldlM (fun acc i => (h i).map (fun k => acc ++ [(i, [v i k])])) acc = none := by
  intro l
  induction l with
  | nil =>
    rintro acc ⟨i, hi, _⟩
    simp at hi
  | cons x rest ih =>
    rintro acc ⟨i, hi, hnone⟩
    rw [List.foldlM_cons]
    rcases List.mem_cons.mp hi with rfl | hmem
    · rw [hnone]
      rfl
    · cases hx : h x with
      | none => rfl
      | some k =>
        simp only [Option.map_some']
        have := ih (acc ++ [(x, [v x k])]) ⟨i, hmem, hnone⟩
        simpa using this

theorem lookup_map_of_nodup {β : Type} (g : Nat → β) :
    ∀ l : List Nat, l.Nodup → ∀ i ∈ l,
      (l.map (fun j => (j, g j))).lookup i = some (g i) := by
  intro l
  induction l with
  | nil => intro _ i hi; simp at hi
  | cons x rest ih =>
    intro hnd i hi
    rw [List.nodup_cons] at hnd
    rw [List.map_cons, List.lookup_cons]
    rcases List.mem_cons.mp hi with rfl | hmem
    · rw [beq_self_eq_true]
    · have hne : i ≠ x := fun hc => hnd.1 (hc ▸ hmem)
      rw [beq_false_of_ne hne]
      exact ih hnd.2 i hmem

/-- Claim C5. Whenever `find_representative_regions` completes (the code
aborts on an empty cluster, see C6), every cluster id `i` below the number
of centroids with at least one member region gets exactly one
representative: its entry is the one-element list holding the member whose
embedded vector has the smallest Euclidean distance to `centers[i]`, and
among members at exactly the minimal distance the lowest region index is
chosen (`np.argmin` returns the first minimum and the member list is
ascending). -/
theorem C5_representative_minimizes_distance (bbvs : List (List ℚ)) (labels : List Nat)
    (centers : List (List ℚ)) (res : List (Nat × List Nat)) (i : Nat)
    (hres : find_representative_regions bbvs labels centers = some res)
    (hi : i < centers.length)
    (hne : npWhereEq labels i ≠ []) :
    (res.map Prod.fst).Nodup ∧
    (∀ j : Nat, j ∈ npWhereEq labels i ↔ labels[j]? = some i) ∧
    (∃ m : Nat, res.lookup i = some [m] ∧ m ∈ npWhereEq labels i ∧
      ∀ j ∈ npWhereEq labels i,
        Real.sqrt ((distSq (bbvs.getD m []) (centers.getD i []) : ℚ) : ℝ) ≤
          Real.sqrt ((distSq (bbvs.getD j []) (centers.getD i []) : ℚ) : ℝ) ∧
        (Real.sqrt ((distSq (bbvs.getD j []) (centers.getD i []) : ℚ) : ℝ) =
          Real.sqrt ((distSq (bbvs.getD m []) (centers.getD i []) : ℚ) : ℝ) → m ≤ j)) := by
  have hunfold : find_representative_regions bbvs labels centers =
      (List.range centers.length).foldlM
        (fun acc i' => ((np_argmin ((npWhereEq labels i').map
            (fun j => distSq (bbvs.getD j []) (centers.getD i' [])))).map
          (fun k => acc ++ [(i', [(npWhereEq labels i').getD k 0])]))) [] := rfl
  rw [hunfold] at hres
  have hall : ∀ i' ∈ List.range centers.length,
      (np_argmin ((npWhereEq labels i').map
        (fun j => distSq (bbvs.getD j []) (centers.getD i' [])))).isSome := by
    intro i' hi'
    cases hh : np_argmin ((npWhereEq labels i').map
        (fun j => distSq (bbvs.getD j []) (centers.getD i' []))) with
    | some k => rfl
    | none =>
      exfalso
      have hnone := foldRep_none
        (fun i' => np_argmin ((npWhereEq labels i').map
          (fun j => distSq (bbvs.getD j []) (centers.getD i' []))))
        (fun i' k => (npWhereEq labels i').getD k 0)
        (List.range centers.length) [] ⟨i', hi', hh⟩
      rw [hres] at hnone
      simp at hnone
  have hchar := foldRep_char
    (fun i' => np_argmin ((npWhereEq labels i').map
      (fun j => distSq (bbvs.getD j []) (centers.getD i' []))))
    (fun i' k => (npWhereEq labels i').getD k 0)
    (List.range centers.length) [] hall
  rw [hres] at hchar
  have hreseq : res = (List.range centers.length).map
      (fun i' => (i', [(npWhereEq labels i').getD
        ((np_argmin ((npWhereEq labels i').map
          (fun j => distSq (bbvs.getD j []) (centers.getD i' [])))).getD 0) 0])) := by
    simpa using hchar
  refine ⟨?_, fun j => npWhereEq_mem labels i j, ?_⟩
  · rw [hreseq, List.map_map]
    have : (Prod.fst ∘ fun i' : Nat => (i', [(npWhereEq labels i').getD
        ((np_argmin ((npWhereEq labels i').map
          (fun j => distSq (bbvs.getD j []) (centers.getD i' [])))).getD 0) 0])) =
        fun i' : Nat => i' := rfl
    rw [this]
    simpa using List.nodup_range centers.length
  · obtain ⟨k, hk⟩ := Option.isSome_iff_exists.mp
      (hall i (List.mem_range.mpr hi))
    obtain ⟨hklen, hspec⟩ := np_argmin_spec _ k hk
    rw [List.length_map] at hklen
    have hlookup : res.lookup i = some [(npWhereEq labels i).getD
        ((np_argmin ((npWhereEq labels i).map
          (fun j => distSq (bbvs.getD j []) (centers.getD i [])))).getD 0) 0] := by
      rw [hreseq]
      exact lookup_map_of_nodup _ (List.range centers.length)
        (List.nodup_range centers.length) i (List.mem_range.mpr hi)
    rw [hk] at hlookup
    simp only [Option.getD_some] at hlookup
    refine ⟨(npWhereEq labels i).getD k 0, hlookup, ?_, ?_⟩
    · have : (npWhereEq labels i)[k]? = some ((npWhereEq labels i).getD k 0) := by
        rw [List.getElem?_eq_getElem hklen]
        simp [List.getD_eq_getElem?_getD, List.getElem?_eq_getElem hklen]
      rw [List.mem_iff_getElem?]
      exact ⟨k, this⟩
    · intro j hj
      obtain ⟨t, ht⟩ := List.mem_iff_getElem?.mp hj
      have htlen : t < (npWhereEq labels i).length :=
        (List.getElem?_eq_some_iff.mp ht).1
      have hdk : ((npWhereEq labels i).map
          (fun j => distSq (bbvs.getD j []) (centers.getD i []))).getD k 0 =
          distSq (bbvs.getD ((npWhereEq labels i).getD k 0) []) (centers.getD i []) := by
        simp [List.getD_eq_getElem?_getD, List.getElem?_map,
          List.getElem?_eq_getElem hklen]
      have hdt : ((npWhereEq labels i).map
          (fun j => distSq (bbvs.getD j []) (centers.getD i []))).getD t 0 =
          distSq (bbvs.getD j []) (centers.getD i []) := by
        simp [List.getD_eq_getElem?_getD, List.getElem?_map, ht]
      have hspect := hspec t (by simpa using htlen)
      rw [hdk, hdt] at hspect
      constructor
      · apply Real.sqrt_le_sqrt
        exact_mod_cast hspect.1
      · intro hsq
        have hnn1 : (0 : ℝ) ≤ ((distSq (bbvs.getD j []) (centers.getD i []) : ℚ) : ℝ) := by
          exact_mod_cast distSq_nonneg _ _
        have hnn2 : (0 : ℝ) ≤
            ((distSq (bbvs.getD ((npWhereEq labels i).getD k 0) [])
              (centers.getD i []) : ℚ) : ℝ) := by
          exact_mod_cast distSq_nonneg _ _
        have heqr := (Real.sqrt_inj hnn1 hnn2).mp hsq
        have heqq : distSq (bbvs.getD j []) (centers.getD i []) =
            distSq (bbvs.getD ((npWhereEq labels i).getD k 0) []) (centers.getD i []) := by
          exact_mod_cast heqr
        have hkt : k ≤ t := hspect.2 heqq
        have := sorted_getD_mono (npWhereEq labels i) (npWhereEq_sorted labels i)
          k t hkt htlen
        have hjt : (npWhereEq labels i).getD t 0 = j := by
          simp [List.getD_eq_getElem?_getD, ht]
        rw [hjt] at this
        exact this

/-- Witness for C5: with two zero-dimensional regions both in cluster 0,
the function returns and cluster 0's entry is the single member chosen by
the theorem (the tie at distance 0 resolves to region 0). -/
theorem C5_witness :
    find_representative_regions [[], []] [0, 0] [[]] = some [(0, [0])] ∧
    ∃ m : Nat, ([(0, [0])] : List (Nat × List Nat)).lookup 0 = some [m] ∧
      m ∈ npWhereEq [0, 0] 0 := by
  refine ⟨by decide, ?_⟩
  obtain ⟨_, _, m, hm, hmem, _⟩ :=
    C5_representative_minimizes_distance [[], []] [0, 0] [[]] [(0, [0])] 0
      (by decide) (by decide) (by decide)
  exact ⟨m, hm, hmem⟩

/-- Claim C6 (amended). If a cluster id in `[0, c)` has no member regions,
`find_representative_regions` does not skip it: `np.argmin` is applied to an
empty distance array and raises `ValueError`, aborting the whole call, so no
result is produced at all. -/
theorem C6_empty_cluster_aborts (bbvs : List (List ℚ)) (labels : List Nat)
    (centers : List (List ℚ)) (i : Nat)
    (hi : i < centers.length) (hempty : npWhereEq labels i = []) :
    find_representative_regions bbvs labels centers = none := by
  have hunfold : find_representative_regions bbvs labels centers =
      (List.range centers.length).foldlM
        (fun acc i' => ((np_argmin ((npWhereEq labels i').map
            (fun j => distSq (bbvs.getD j []) (centers.getD i' [])))).map
          (fun k => acc ++ [(i', [(npWhereEq labels i').getD k 0])]))) [] := rfl
  rw [hunfold]
  apply foldRep_none
  refine ⟨i, List.mem_range.mpr hi, ?_⟩
  rw [hempty]
  rfl

/-- Counterexample for C6 as frozen: with two centroids and no region
assigned to any cluster, the function does not return an entry-less result —
the `ValueError` of `np.argmin` on the empty distance array aborts it
(`none`), contradicting the claim that no error is raised. -/
theorem C6_counterexample :
    find_representative_regions [] [] [[0], [1]] = none := by decide

/-- Witness for C6 (amended): a single empty cluster aborts the call. -/
theorem C6_witness : find_representative_regions [] [] [[]] = none :=
  C6_empty_cluster_aborts [] [] [[]] 0 (by decide) (by decide)
